import Mathlib

/-!
Verification of the BoostAug boosting/filtering pipeline
(`boost_aug/boosting_aug_core.py`).

The development shallowly embeds the algorithmic core of the repository:

* the candidate selection step shared by `tc_cross_boost_training` /
  `apc_cross_boost_training` (lines 396-428 / 783-820): a Python dict keyed
  by perplexity, the confidence/label gates, ranking, winner-cap slicing and
  the perplexity cutoff;
* the selection step of `tc_mono_boost_training` / `apc_mono_boost_training`
  (lines 532-552 / 935-959);
* the classic-strategy emission of `tc_classic_boost_training`
  (lines 252-273);
* the fold splitter of the cross-boost strategies (lines 319-320 / 699-700);
* the checkpoint-reuse logic (lines 349-367 / 730-747);
* the tail of `detect_dataset` (lines 1081-1093);
* the `AUGMENT_NUM_PER_CASE` normalisation in `BoostingAug.__init__`
  (line 113).

Scores (confidence, perplexity) are modelled as rationals; texts as `String`
payloads (the selection logic never inspects them), except where the code
manipulates the text itself (placeholder check, `str.replace`), where texts
are lists of characters.
-/

namespace BoostAug

/-- A scored augmentation candidate: the emitted payload together with the
scorer outputs used by the selection step (`perplexity.item()`,
`results[0]['confidence']`, `results[0]['ref_check'] == 'Correct'`). -/
structure Cand where
  text : String
  labelMatch : Bool
  conf : ℚ
  ppl : ℚ
deriving DecidableEq, Repr

/-- The construction-time options consulted by the selection step:
`USE_LABEL`, `USE_CONFIDENCE`, `USE_PERPLEXITY`, `CONFIDENCE_THRESHOLD`,
`PERPLEXITY_THRESHOLD`, `WINNER_NUM_PER_CASE`.  The winner cap is an `Int`
because the Python attribute is an unvalidated integer. -/
structure Config where
  useLabel : Bool
  useConf : Bool
  usePerpl : Bool
  confThreshold : ℚ
  pplThreshold : ℚ
  winnerCap : Int
deriving DecidableEq, Repr

/-- Python dict assignment `d[k] = v`: replace the value in place if the key
is present (keeping the key's original insertion position), append otherwise. -/
def dictInsert (d : List (ℚ × Cand)) (k : ℚ) (v : Cand) : List (ℚ × Cand) :=
  match d with
  | [] => [(k, v)]
  | (k₀, v₀) :: rest =>
    if k₀ = k then (k₀, v) :: rest else (k₀, v₀) :: dictInsert rest k v

/-- Python dict read `d[k]` (as an `Option`, total on the dict's keys). -/
def dictGet (d : List (ℚ × Cand)) (k : ℚ) : Option Cand :=
  match d with
  | [] => none
  | (k₀, v₀) :: rest => if k₀ = k then some v₀ else dictGet rest k

/-- Python slice `l[:w]` for an arbitrary integer `w`: a nonnegative bound
takes a prefix, a negative bound drops `-w` elements from the end. -/
def pySlice (w : Int) (l : List α) : List α :=
  if 0 ≤ w then l.take w.toNat else l.take ((l.length : Int) + w).toNat

/-- The label/confidence gate of the cross-boost selection (lines 409-415):
a candidate survives unless `USE_LABEL` rejects a label mismatch or
`USE_CONFIDENCE` rejects `confidence <= CONFIDENCE_THRESHOLD`. -/
def gatePass (cfg : Config) (c : Cand) : Bool :=
  (!cfg.useLabel || c.labelMatch) && (!cfg.useConf || decide (cfg.confThreshold < c.conf))

/-- The survivors of the label/confidence gates, in insertion order. -/
def survivors (cfg : Config) (cands : List Cand) : List Cand :=
  cands.filter (gatePass cfg)

/-- The `augs` dict of the cross-boost selection (lines 396-417): every
gate-surviving candidate is stored under its perplexity,
`augs[perplexity.item()] = [...]`, so a later candidate with an equal
perplexity overwrites the earlier one. -/
def buildAugs (cfg : Config) (cands : List Cand) : List (ℚ × Cand) :=
  cands.foldl (fun d c => if gatePass cfg c then dictInsert d c.ppl c else d) []

/-- `key_rank` (lines 419-422): `sorted(augs.keys())` when `USE_CONFIDENCE`,
otherwise `list(augs.keys())` (insertion order). -/
def keyRank (cfg : Config) (d : List (ℚ × Cand)) : List ℚ :=
  if cfg.useConf then List.insertionSort (fun a b => a ≤ b) (d.map Prod.fst)
  else d.map Prod.fst

/-- The perplexity cutoff of lines 424-428: with `USE_PERPLEXITY` a key is
emitted only when `key < PERPLEXITY_THRESHOLD`, otherwise unconditionally. -/
def pplPass (cfg : Config) (k : ℚ) : Bool :=
  !cfg.usePerpl || decide (k < cfg.pplThreshold)

/-- The per-example cross-boost selection (lines 396-428 of
`tc_cross_boost_training`; `apc_cross_boost_training` lines 783-820 are
structurally identical): build the `augs` dict, rank its keys, truncate with
`key_rank[:WINNER_NUM_PER_CASE]`, then emit the dict values passing the
perplexity cutoff. -/
def select (cfg : Config) (cands : List Cand) : List Cand :=
  let d := buildAugs cfg cands
  ((pySlice cfg.winnerCap (keyRank cfg d)).filter (pplPass cfg)).filterMap (dictGet d)

/-- The per-example mono-boost selection (lines 532-552 of
`tc_mono_boost_training`; `apc_mono_boost_training` lines 935-959 are
structurally identical).  The gate is the unconditional
`ref_check == 'Correct' and confidence > CONFIDENCE_THRESHOLD`, the ranking
is always `sorted(augs.keys())` and the cutoff always
`key < PERPLEXITY_THRESHOLD`: the three `USE_*` toggles are not consulted. -/
def monoSelect (cfg : Config) (cands : List Cand) : List Cand :=
  let d := cands.foldl
    (fun d c => if c.labelMatch && decide (cfg.confThreshold < c.conf)
                then dictInsert d c.ppl c else d) []
  let ks := pySlice cfg.winnerCap (List.insertionSort (fun a b => a ≤ b) (d.map Prod.fst))
  (ks.filter (fun k => decide (k < cfg.pplThreshold))).filterMap (dictGet d)

/-- The ranking step alone (no truncation, no perplexity cutoff): the `augs`
dict values read back in `key_rank` order. -/
def rankedSurvivors (cfg : Config) (cands : List Cand) : List Cand :=
  let d := buildAugs cfg cands
  (keyRank cfg d).filterMap (dictGet d)

/-! ### Fold splitter (cross-boost, lines 319-320 / 699-700)

```python
len_per_fold = len(train_data) // self.BOOSTING_FOLD + 1
folds = [train_data[i: i + len_per_fold] for i in range(0, len(train_data), len_per_fold)]
```

`chunksFuel` implements the slicing comprehension by structural recursion;
the fuel is an upper bound on the number of iterations (the list length
suffices for any positive chunk size). -/

def chunksFuel (fuel : ℕ) (l : List α) (n : ℕ) : List (List α) :=
  match fuel with
  | 0 => []
  | fuel + 1 => if l.isEmpty then [] else l.take n :: chunksFuel fuel (l.drop n) n

/-- The fold splitter: chunk size `len(train_data) // BOOSTING_FOLD + 1`. -/
def foldSplit (l : List α) (k : ℕ) : List (List α) :=
  chunksFuel l.length l (l.length / k + 1)

/-! ### Checkpoint reuse (cross-boost, lines 349-367)

```python
if len(find_dirs(self.ROOT, keys)) < self.CLASSIFIER_TRAINING_NUM + 1:
    Trainer(...)
...
checkpoint_path = ''
max_f1 = ''
for path in find_dirs(self.ROOT, keys):
    if 'f1' in path and path[path.index('f1'):] > max_f1:
        max_f1 = max(path[path.index('f1'):], checkpoint_path)
        checkpoint_path = path
```
-/

/-- Whether the filter-classifier training step runs: it does iff fewer than
`CLASSIFIER_TRAINING_NUM + 1` matching checkpoint directories exist. -/
def needTraining (numCkpt trainNum : ℕ) : Bool :=
  decide (numCkpt < trainNum + 1)

/-- Python `<` on single characters: comparison of code points. -/
def charLt (a b : Char) : Bool := decide (a.toNat < b.toNat)

/-- Python `<` on strings: lexicographic comparison by code points, a strict
prefix comparing smaller. -/
def strLt : List Char → List Char → Bool
  | [], [] => false
  | [], _ :: _ => true
  | _ :: _, [] => false
  | a :: as, b :: bs =>
    if charLt a b then true else if charLt b a then false else strLt as bs

/-- Python `max(a, b)` on strings: the first argument wins ties. -/
def pyMax (a b : List Char) : List Char := if strLt a b then b else a

/-- `path[path.index('f1'):]` guarded by `'f1' in path`: the suffix of the
path starting at the first occurrence of `"f1"`, when one exists. -/
def f1Suffix : List Char → Option (List Char)
  | [] => none
  | a :: rest =>
    if a = 'f' ∧ rest.head? = some '1' then some (a :: rest) else f1Suffix rest

/-- One iteration of the checkpoint-selection loop; the state is the pair
`(checkpoint_path, max_f1)`.  Note the code updates `max_f1` with
`max(path[path.index('f1'):], checkpoint_path)` — the *previous full path*,
not the previous suffix. -/
def ckptStep (st : List Char × List Char) (p : List Char) : List Char × List Char :=
  match f1Suffix p with
  | none => st
  | some suf => if strLt st.2 suf then (p, pyMax suf st.1) else st

/-- The checkpoint-selection loop over the matched directories, started from
`checkpoint_path = ''`, `max_f1 = ''`. -/
def selectCheckpoint (paths : List (List Char)) : List Char × List Char :=
  paths.foldl ckptStep ([], [])

/-! ### Classic strategy emission (`tc_classic_boost_training`, lines 252-273)

```python
if self.WINNER_NUM_PER_CASE:
    ...
    for aug in augs:
        if aug.endswith('PLACEHOLDER {}'.format(label)):
            _text = aug.replace('PLACEHOLDER', '$LABEL$')
            fout_aug_train.write(_text + '\n')
```
-/

/-- Python `s.startswith(pat)` on character lists, used to implement
`str.replace`. -/
def listStartsWith : List Char → List Char → Bool
  | _, [] => true
  | [], _ :: _ => false
  | a :: as, b :: bs => a == b && listStartsWith as bs

/-- Python `s.endswith(suf)`. -/
def pyEndsWith (s suf : List Char) : Bool :=
  decide (suf.length ≤ s.length) && ((s.drop (s.length - suf.length)) == suf)

/-- Python `s.replace(pat, rep)` for a nonempty pattern (fuelled structural
recursion; fuel `s.length` suffices since every step consumes at least one
character of `s`). -/
def pyReplaceF : ℕ → List Char → List Char → List Char → List Char
  | 0, s, _, _ => s
  | fuel + 1, s, pat, rep =>
    match s with
    | [] => []
    | a :: rest =>
      if !pat.isEmpty && listStartsWith (a :: rest) pat then
        rep ++ pyReplaceF fuel ((a :: rest).drop pat.length) pat rep
      else a :: pyReplaceF fuel rest pat rep

/-- Python `s.replace(pat, rep)`. -/
def pyReplace (s pat rep : List Char) : List Char := pyReplaceF s.length s pat rep

/-- The placeholder sentinel substituted for `$LABEL$` before augmentation. -/
def placeholderChars : List Char := String.toList "PLACEHOLDER"

/-- The label marker restored into emitted lines. -/
def labelMarkChars : List Char := String.toList "$LABEL$"

/-- Classic-strategy emission for one source example: gated only by the
truthiness of `WINNER_NUM_PER_CASE`; every augmentation whose text still ends
with `'PLACEHOLDER ' + label` is written out (no cap, no scoring). -/
def classicEmit (winnerCap : Int) (label : List Char) (augs : List (List Char)) :
    List (List Char) :=
  if winnerCap = 0 then []
  else (augs.filter (fun a => pyEndsWith a (placeholderChars ++ ' ' :: label))).map
    (fun a => pyReplace a placeholderChars labelMarkChars)

/-! ### `detect_dataset` (lines 1060-1093) -/

/-- The naming-convention documentation pointed to by the fatal error. -/
def namingConventionURL : String :=
  "https://github.com/yangheng95/ABSADatasets#important-rename-your-dataset-filename-before-use-it-in-pyabsa"

/-- The message of the `RuntimeError` raised when no training files were
located. -/
def datasetErrorMsg (pathName : String) : String :=
  "Fail to locate dataset: " ++ pathName ++
    ". If you are using your own dataset, you may need rename your dataset according to " ++
    namingConventionURL

/-- The decision tail of `detect_dataset` (lines 1081-1093), over the file
lists produced by the directory scan: raise iff no training files were found;
a missing test split only sets off a printed warning (the returned `Bool`)
and the mapping is returned normally. -/
def detect_dataset (pathName : String) (train test valid : List String) :
    Except String ((List String × List String × List String) × Bool) :=
  if train = [] then Except.error (datasetErrorMsg pathName)
  else Except.ok ((train, test, valid), decide (test = []))

/-! ### Constructor normalisation (line 113)

```python
self.AUGMENT_NUM_PER_CASE = AUGMENT_NUM_PER_CASE if AUGMENT_NUM_PER_CASE > 0 else 1
```
-/

/-- The stored `AUGMENT_NUM_PER_CASE`. -/
def storeAugmentNumPerCase (n : Int) : Int := if 0 < n then n else 1

/-! ## Dictionary lemmas -/

/-- The inner fold of `buildAugs`, without the gate (used to reason about the
dict once the gate has been factored out as a `filter`). -/
def buildDictFrom (d : List (ℚ × Cand)) (l : List Cand) : List (ℚ × Cand) :=
  l.foldl (fun d c => dictInsert d c.ppl c) d

theorem dictInsert_map_fst (d : List (ℚ × Cand)) (k : ℚ) (v : Cand) :
    (dictInsert d k v).map Prod.fst =
      if k ∈ d.map Prod.fst then d.map Prod.fst else d.map Prod.fst ++ [k] := by
  induction d with
  | nil => simp [dictInsert]
  | cons kv rest ih =>
    obtain ⟨k₀, v₀⟩ := kv
    by_cases h : k₀ = k
    · simp [dictInsert, h]
    · simp only [dictInsert, if_neg h, List.map_cons, ih, List.mem_cons]
      by_cases hm : k ∈ rest.map Prod.fst
      · simp [hm, Ne.symm h]
      · simp [hm, Ne.symm h]

theorem mem_dictInsert_map_fst (d : List (ℚ × Cand)) (k k' : ℚ) (v : Cand) :
    k' ∈ (dictInsert d k v).map Prod.fst ↔ k' ∈ d.map Prod.fst ∨ k' = k := by
  rw [dictInsert_map_fst]
  by_cases hm : k ∈ d.map Prod.fst
  · simp only [if_pos hm]
    constructor
    · exact fun h => Or.inl h
    · rintro (h | rfl)
      · exact h
      · exact hm
  · simp [if_neg hm]

theorem nodup_dictInsert_map_fst (d : List (ℚ × Cand)) (k : ℚ) (v : Cand)
    (h : (d.map Prod.fst).Nodup) : ((dictInsert d k v).map Prod.fst).Nodup := by
  rw [dictInsert_map_fst]
  by_cases hm : k ∈ d.map Prod.fst
  · simpa [hm] using h
  · rw [if_neg hm]
    exact List.Nodup.append h (List.nodup_singleton k) (by simpa using hm)

theorem mem_dictInsert (d : List (ℚ × Cand)) (k k' : ℚ) (v v' : Cand)
    (h : (k', v') ∈ dictInsert d k v) : (k', v') ∈ d ∨ (k', v') = (k, v) := by
  induction d with
  | nil => simpa [dictInsert] using h
  | cons kv rest ih =>
    obtain ⟨k₀, v₀⟩ := kv
    by_cases hk : k₀ = k
    · subst hk
      rcases (by simpa [dictInsert] using h : (k', v') = (k₀, v) ∨ (k', v') ∈ rest) with h₁ | h₁
      · exact Or.inr h₁
      · exact Or.inl (List.mem_cons_of_mem _ h₁)
    · rcases (by simpa [dictInsert, hk] using h :
        (k', v') = (k₀, v₀) ∨ (k', v') ∈ dictInsert rest k v) with h₁ | h₁
      · exact Or.inl (by simp [h₁])
      · rcases ih h₁ with h₂ | h₂
        · exact Or.inl (List.mem_cons_of_mem _ h₂)
        · exact Or.inr h₂

theorem dictInsert_of_not_mem (d : List (ℚ × Cand)) (k : ℚ) (v : Cand)
    (h : k ∉ d.map Prod.fst) : dictInsert d k v = d ++ [(k, v)] := by
  induction d with
  | nil => simp [dictInsert]
  | cons kv rest ih =>
    obtain ⟨k₀, v₀⟩ := kv
    simp only [List.map_cons, List.mem_cons] at h
    push_neg at h
    simp [dictInsert, Ne.symm h.1, ih h.2]

theorem dictGet_isSome (d : List (ℚ × Cand)) (k : ℚ) (h : k ∈ d.map Prod.fst) :
    (dictGet d k).isSome := by
  induction d with
  | nil => simp at h
  | cons kv rest ih =>
    obtain ⟨k₀, v₀⟩ := kv
    by_cases hk : k₀ = k
    · simp [dictGet, hk]
    · simp only [List.map_cons, List.mem_cons] at h
      rcases h with h | h
      · exact absurd h.symm hk
      · simpa [dictGet, hk] using ih h

theorem dictGet_mem (d : List (ℚ × Cand)) (k : ℚ) (v : Cand)
    (h : dictGet d k = some v) : (k, v) ∈ d := by
  induction d with
  | nil => simp [dictGet] at h
  | cons kv rest ih =>
    obtain ⟨k₀, v₀⟩ := kv
    by_cases hk : k₀ = k
    · subst hk
      have h' : v₀ = v := by simpa [dictGet] using h
      subst h'
      exact List.mem_cons_self _ _
    · simp only [dictGet, if_neg hk] at h
      exact List.mem_cons_of_mem _ (ih h)

/-! ## Lemmas about the `augs` dict built by the selection step -/

theorem buildAugs_eq_buildDictFrom (cfg : Config) (cands : List Cand) :
    buildAugs cfg cands = buildDictFrom [] (survivors cfg cands) := by
  rw [buildAugs, survivors, buildDictFrom]
  generalize ([] : List (ℚ × Cand)) = d
  induction cands generalizing d with
  | nil => simp
  | cons c rest ih =>
    by_cases h : gatePass cfg c
    · simp [h, ih]
    · simp [h, ih]

theorem nodup_buildDictFrom_map_fst (l : List Cand) :
    ∀ d : List (ℚ × Cand), (d.map Prod.fst).Nodup →
      ((buildDictFrom d l).map Prod.fst).Nodup := by
  induction l with
  | nil => intro d hd; simpa [buildDictFrom] using hd
  | cons c rest ih =>
    intro d hd
    exact ih (dictInsert d c.ppl c) (nodup_dictInsert_map_fst d c.ppl c hd)

theorem mem_buildDictFrom_map_fst (l : List Cand) :
    ∀ (d : List (ℚ × Cand)) (k : ℚ),
      k ∈ (buildDictFrom d l).map Prod.fst ↔ k ∈ d.map Prod.fst ∨ k ∈ l.map Cand.ppl := by
  induction l with
  | nil => intro d k; simp [buildDictFrom]
  | cons c rest ih =>
    intro d k
    show k ∈ (buildDictFrom (dictInsert d c.ppl c) rest).map Prod.fst ↔ _
    rw [ih, mem_dictInsert_map_fst]
    simp only [List.map_cons, List.mem_cons]
    tauto

theorem buildDictFrom_key_eq_ppl (l : List Cand) :
    ∀ (d : List (ℚ × Cand)), (∀ k v, (k, v) ∈ d → v.ppl = k) →
      ∀ k v, (k, v) ∈ buildDictFrom d l → v.ppl = k := by
  induction l with
  | nil => intro d hd; simpa [buildDictFrom] using hd
  | cons c rest ih =>
    intro d hd
    refine ih (dictInsert d c.ppl c) ?_
    intro k v hm
    rcases mem_dictInsert d c.ppl k c v hm with h | h
    · exact hd k v h
    · rw [Prod.mk.injEq] at h
      rw [h.2, h.1]

theorem buildDictFrom_val_mem (l : List Cand) :
    ∀ (d : List (ℚ × Cand)) (k : ℚ) (v : Cand), (k, v) ∈ buildDictFrom d l →
      (k, v) ∈ d ∨ v ∈ l := by
  induction l with
  | nil => intro d k v h; exact Or.inl (by simpa [buildDictFrom] using h)
  | cons c rest ih =>
    intro d k v h
    rcases ih (dictInsert d c.ppl c) k v h with h₁ | h₁
    · rcases mem_dictInsert d c.ppl k c v h₁ with h₂ | h₂
      · exact Or.inl h₂
      · rw [Prod.mk.injEq] at h₂
        exact Or.inr (by simp [h₂.2])
    · exact Or.inr (List.mem_cons_of_mem _ h₁)

theorem buildDictFrom_of_nodup (l : List Cand) :
    ∀ d : List (ℚ × Cand), (∀ c ∈ l, c.ppl ∉ d.map Prod.fst) →
      (l.map Cand.ppl).Nodup →
      buildDictFrom d l = d ++ l.map (fun c => (c.ppl, c)) := by
  induction l with
  | nil => intro d _ _; simp [buildDictFrom]
  | cons c rest ih =>
    intro d hd hnd
    simp only [List.map_cons, List.nodup_cons] at hnd
    show buildDictFrom (dictInsert d c.ppl c) rest = _
    rw [dictInsert_of_not_mem d c.ppl c (hd c (List.mem_cons_self _ _)),
      ih (d ++ [(c.ppl, c)]) ?_ hnd.2]
    · simp
    · intro c' hc'
      simp only [List.map_append, List.map_cons, List.map_nil, List.mem_append,
        List.mem_singleton]
      push_neg
      refine ⟨hd c' (List.mem_cons_of_mem _ hc'), ?_⟩
      intro hEq
      exact hnd.1 (hEq ▸ List.mem_map_of_mem Cand.ppl hc')

/-! ## Reading the dict back along a key list -/

theorem filterMap_dictGet_map_ppl (d : List (ℚ × Cand))
    (hinv : ∀ k v, (k, v) ∈ d → v.ppl = k) :
    ∀ ks : List ℚ, (∀ k ∈ ks, k ∈ d.map Prod.fst) →
      (ks.filterMap (dictGet d)).map Cand.ppl = ks := by
  intro ks
  induction ks with
  | nil => intro _; simp
  | cons k rest ih =>
    intro hks
    obtain ⟨v, hv⟩ := Option.isSome_iff_exists.mp
      (dictGet_isSome d k (hks k (List.mem_cons_self _ _)))
    rw [List.filterMap_cons, hv]
    simp only [List.map_cons, ih fun k' hk' => hks k' (List.mem_cons_of_mem _ hk')]
    rw [hinv k v (dictGet_mem d k v hv)]

theorem length_filterMap_dictGet (d : List (ℚ × Cand))
    (hinv : ∀ k v, (k, v) ∈ d → v.ppl = k)
    (ks : List ℚ) (hks : ∀ k ∈ ks, k ∈ d.map Prod.fst) :
    (ks.filterMap (dictGet d)).length = ks.length := by
  have h := congrArg List.length (filterMap_dictGet_map_ppl d hinv ks hks)
  simpa using h

theorem filterMap_dictGet_pairs (l : List Cand) (hnd : (l.map Cand.ppl).Nodup) :
    (l.map Cand.ppl).filterMap (dictGet (l.map fun c => (c.ppl, c))) = l := by
  induction l with
  | nil => simp
  | cons c rest ih =>
    simp only [List.map_cons, List.nodup_cons] at hnd
    rw [List.map_cons, List.map_cons, List.filterMap_cons]
    have hhead : dictGet ((c.ppl, c) :: rest.map fun c => (c.ppl, c)) c.ppl = some c := by
      simp [dictGet]
    rw [hhead]
    show c :: (rest.map Cand.ppl).filterMap (dictGet ((c.ppl, c) :: rest.map fun c => (c.ppl, c)))
      = c :: rest
    congr 1
    have hrest : ∀ k ∈ rest.map Cand.ppl,
        dictGet ((c.ppl, c) :: rest.map fun c => (c.ppl, c)) k =
          dictGet (rest.map fun c => (c.ppl, c)) k := by
      intro k hk
      have : c.ppl ≠ k := fun hEq => hnd.1 (hEq ▸ hk)
      simp [dictGet, this]
    calc (rest.map Cand.ppl).filterMap (dictGet ((c.ppl, c) :: rest.map fun c => (c.ppl, c)))
        = (rest.map Cand.ppl).filterMap (dictGet (rest.map fun c => (c.ppl, c))) :=
          List.filterMap_congr hrest
      _ = rest := ih hnd.2

/-! ## Ranking, slicing and counting lemmas -/

theorem keyRank_perm (cfg : Config) (d : List (ℚ × Cand)) :
    List.Perm (keyRank cfg d) (d.map Prod.fst) := by
  rw [keyRank]
  split
  · exact List.perm_insertionSort _ _
  · exact List.Perm.refl _

theorem pySlice_sublist (w : Int) (l : List α) : List.Sublist (pySlice w l) l := by
  rw [pySlice]
  split <;> exact List.take_sublist _ _

/-- The number of elements kept by the Python slice `l[:w]`, as a function of
the list length. -/
def sliceAmt (w : Int) (n : ℕ) : ℕ := if 0 ≤ w then w.toNat else ((n : Int) + w).toNat

theorem pySlice_eq_take (w : Int) (l : List α) : pySlice w l = l.take (sliceAmt w l.length) := by
  rw [pySlice, sliceAmt]
  split <;> rfl

theorem buildAugs_key_eq_ppl (cfg : Config) (cands : List Cand) :
    ∀ k v, (k, v) ∈ buildAugs cfg cands → v.ppl = k := by
  rw [buildAugs_eq_buildDictFrom]
  exact buildDictFrom_key_eq_ppl _ [] (by simp)

theorem nodup_buildAugs_keys (cfg : Config) (cands : List Cand) :
    ((buildAugs cfg cands).map Prod.fst).Nodup := by
  rw [buildAugs_eq_buildDictFrom]
  exact nodup_buildDictFrom_map_fst _ [] (by simp)

theorem mem_buildAugs_keys (cfg : Config) (cands : List Cand) (k : ℚ) :
    k ∈ (buildAugs cfg cands).map Prod.fst ↔ k ∈ (survivors cfg cands).map Cand.ppl := by
  rw [buildAugs_eq_buildDictFrom, mem_buildDictFrom_map_fst]
  simp

theorem select_keys_mem (cfg : Config) (cands : List Cand) :
    ∀ k ∈ (pySlice cfg.winnerCap (keyRank cfg (buildAugs cfg cands))).filter (pplPass cfg),
      k ∈ (buildAugs cfg cands).map Prod.fst := by
  intro k hk
  have h₁ := (List.filter_sublist _).subset hk
  have h₂ := (pySlice_sublist _ _).subset h₁
  exact (keyRank_perm cfg _).mem_iff.mp h₂

theorem select_length_eq (cfg : Config) (cands : List Cand) :
    (select cfg cands).length =
      ((pySlice cfg.winnerCap (keyRank cfg (buildAugs cfg cands))).filter (pplPass cfg)).length := by
  simp only [select]
  exact length_filterMap_dictGet _ (buildAugs_key_eq_ppl cfg cands) _ (select_keys_mem cfg cands)

theorem countP_take_of_sorted (p : ℚ → Bool)
    (hp : ∀ a b : ℚ, a ≤ b → p b = true → p a = true) :
    ∀ s : List ℚ, s.Pairwise (fun a b => a ≤ b) →
      ∀ m : ℕ, (s.take m).countP p = min m (s.countP p) := by
  intro s
  induction s with
  | nil => intro _ m; simp
  | cons a rest ih =>
    intro hs m
    rw [List.pairwise_cons] at hs
    match m with
    | 0 => simp
    | m + 1 =>
      rw [List.take_succ_cons, List.countP_cons, List.countP_cons, ih hs.2 m]
      by_cases hpa : p a = true
      · simp only [hpa, if_true]
        omega
      · have hrest : rest.countP p = 0 :=
          List.countP_eq_zero.mpr fun b hb hpb => hpa (hp a b (hs.1 b hb) hpb)
        have htake : (rest.take m).countP p = 0 :=
          List.countP_eq_zero.mpr fun b hb hpb =>
            hpa (hp a b (hs.1 b ((List.take_sublist m rest).subset hb)) hpb)
        simp [htake, hrest, hpa]

theorem pplPass_antitone (cfg : Config) (a b : ℚ) (hab : a ≤ b)
    (h : pplPass cfg b = true) : pplPass cfg a = true := by
  cases hu : cfg.usePerpl with
  | false => simp [pplPass, hu]
  | true =>
    simp only [pplPass, hu, Bool.not_true, Bool.false_or, decide_eq_true_eq] at h ⊢
    exact lt_of_le_of_lt hab h

/-! ## Monotonicity of the selection in the confidence threshold -/

theorem gatePass_imp (cfg : Config) (t₁ t₂ : ℚ) (h : t₁ ≤ t₂) (c : Cand)
    (hg : gatePass { cfg with confThreshold := t₂ } c = true) :
    gatePass { cfg with confThreshold := t₁ } c = true := by
  simp only [gatePass, Bool.and_eq_true, Bool.or_eq_true, Bool.not_eq_true',
    decide_eq_true_eq] at hg ⊢
  refine ⟨hg.1, ?_⟩
  rcases hg.2 with h₂ | h₂
  · exact Or.inl h₂
  · exact Or.inr (lt_of_le_of_lt h h₂)

theorem survivors_antitone (cfg : Config) (t₁ t₂ : ℚ) (h : t₁ ≤ t₂) (cands : List Cand) :
    List.Sublist (survivors { cfg with confThreshold := t₂ } cands)
      (survivors { cfg with confThreshold := t₁ } cands) :=
  List.monotone_filter_right cands fun c hc => gatePass_imp cfg t₁ t₂ h c hc

theorem select_length_char (cfg : Config) (cands : List Cand) (hc : cfg.useConf = true) :
    (select cfg cands).length =
      min (sliceAmt cfg.winnerCap ((buildAugs cfg cands).map Prod.fst).length)
        (((buildAugs cfg cands).map Prod.fst).countP (pplPass cfg)) := by
  rw [select_length_eq]
  have hS : keyRank cfg (buildAugs cfg cands) =
      List.insertionSort (fun a b => a ≤ b) ((buildAugs cfg cands).map Prod.fst) := by
    rw [keyRank, if_pos hc]
  rw [hS, pySlice_eq_take, ← List.countP_eq_length_filter,
    countP_take_of_sorted (pplPass cfg) (pplPass_antitone cfg) _
      (List.sorted_insertionSort _ _),
    (List.perm_insertionSort (fun a b => a ≤ b) _).length_eq,
    (List.perm_insertionSort (fun a b => a ≤ b) _).countP_eq]

theorem select_length_antitone_of_useConf (cfg : Config) (t₁ t₂ : ℚ) (h : t₁ ≤ t₂)
    (cands : List Cand) (hc : cfg.useConf = true) :
    (select { cfg with confThreshold := t₂ } cands).length ≤
      (select { cfg with confThreshold := t₁ } cands).length := by
  rw [select_length_char { cfg with confThreshold := t₂ } cands hc,
    select_length_char { cfg with confThreshold := t₁ } cands hc]
  have hppl₂ : pplPass { cfg with confThreshold := t₂ } = pplPass { cfg with confThreshold := t₁ } :=
    rfl
  rw [hppl₂]
  have hsub : (buildAugs { cfg with confThreshold := t₂ } cands).map Prod.fst ⊆
      (buildAugs { cfg with confThreshold := t₁ } cands).map Prod.fst := by
    intro k hk
    rw [mem_buildAugs_keys] at hk ⊢
    obtain ⟨c, hc', rfl⟩ := List.mem_map.mp hk
    exact List.mem_map_of_mem _ ((survivors_antitone cfg t₁ t₂ h cands).subset hc')
  have hsp := List.subperm_of_subset
    (nodup_buildAugs_keys { cfg with confThreshold := t₂ } cands) hsub
  have hcount := hsp.countP_le (pplPass { cfg with confThreshold := t₁ })
  have hlen := hsp.length_le
  have hamt : sliceAmt cfg.winnerCap ((buildAugs { cfg with confThreshold := t₂ } cands).map Prod.fst).length ≤
      sliceAmt cfg.winnerCap ((buildAugs { cfg with confThreshold := t₁ } cands).map Prod.fst).length := by
    rw [sliceAmt, sliceAmt]
    split <;> omega
  exact min_le_min hamt hcount

theorem gatePass_of_not_useConf (cfg : Config) (t₁ t₂ : ℚ) (hc : cfg.useConf = false) :
    gatePass { cfg with confThreshold := t₂ } = gatePass { cfg with confThreshold := t₁ } := by
  funext c
  simp [gatePass, hc]

theorem select_of_not_useConf (cfg : Config) (t₁ t₂ : ℚ) (hc : cfg.useConf = false)
    (cands : List Cand) :
    select { cfg with confThreshold := t₂ } cands = select { cfg with confThreshold := t₁ } cands := by
  simp only [select, buildAugs, gatePass_of_not_useConf cfg t₁ t₂ hc]
  rfl

/-! ## Characterisation of the selection output (towards idempotence) -/

/-- The keys surviving ranking, the winner-cap slice and the perplexity
cutoff. -/
def keptKeys (cfg : Config) (cands : List Cand) : List ℚ :=
  (pySlice cfg.winnerCap (keyRank cfg (buildAugs cfg cands))).filter (pplPass cfg)

theorem select_eq_keptKeys (cfg : Config) (cands : List Cand) :
    select cfg cands = (keptKeys cfg cands).filterMap (dictGet (buildAugs cfg cands)) := rfl

theorem select_gatePass (cfg : Config) (cands : List Cand) :
    ∀ c ∈ select cfg cands, gatePass cfg c = true := by
  intro c hcm
  simp only [select] at hcm
  obtain ⟨k, _, hget⟩ := List.mem_filterMap.mp hcm
  have hmem := dictGet_mem _ k c hget
  rw [buildAugs_eq_buildDictFrom] at hmem
  rcases buildDictFrom_val_mem _ [] k c hmem with h | h
  · simp at h
  · exact (List.mem_filter.mp h).2

theorem keptKeys_nodup (cfg : Config) (cands : List Cand) : (keptKeys cfg cands).Nodup := by
  have h₁ : (keyRank cfg (buildAugs cfg cands)).Nodup :=
    (keyRank_perm cfg _).nodup_iff.mpr (nodup_buildAugs_keys cfg cands)
  exact (h₁.sublist (pySlice_sublist _ _)).sublist (List.filter_sublist _)

theorem select_map_ppl (cfg : Config) (cands : List Cand) :
    (select cfg cands).map Cand.ppl = keptKeys cfg cands := by
  rw [select_eq_keptKeys]
  exact filterMap_dictGet_map_ppl _ (buildAugs_key_eq_ppl cfg cands) _ (select_keys_mem cfg cands)

theorem keptKeys_pplPass (cfg : Config) (cands : List Cand) :
    ∀ k ∈ keptKeys cfg cands, pplPass cfg k = true := by
  intro k hk
  exact List.of_mem_filter hk

theorem keptKeys_sorted (cfg : Config) (cands : List Cand) (hc : cfg.useConf = true) :
    (keptKeys cfg cands).Pairwise (fun a b => a ≤ b) := by
  have h₁ : (keyRank cfg (buildAugs cfg cands)).Pairwise (fun a b => a ≤ b) := by
    rw [keyRank, if_pos hc]
    exact List.sorted_insertionSort _ _
  exact (h₁.sublist (pySlice_sublist _ _)).sublist (List.filter_sublist _)

theorem select_length_le_cap (cfg : Config) (cands : List Cand) (hw : 0 ≤ cfg.winnerCap) :
    (select cfg cands).length ≤ cfg.winnerCap.toNat := by
  rw [select_length_eq]
  calc ((pySlice cfg.winnerCap (keyRank cfg (buildAugs cfg cands))).filter (pplPass cfg)).length
      ≤ (pySlice cfg.winnerCap (keyRank cfg (buildAugs cfg cands))).length :=
        List.length_filter_le _ _
    _ ≤ cfg.winnerCap.toNat := by
        rw [pySlice, if_pos hw]
        exact List.length_take_le _ _

theorem buildAugs_all_pass (cfg : Config) (l : List Cand)
    (h : ∀ c ∈ l, gatePass cfg c = true) : buildAugs cfg l = buildDictFrom [] l := by
  rw [buildAugs_eq_buildDictFrom, survivors, List.filter_eq_self.mpr h]

theorem buildDict_of_nodup (l : List Cand) (h : (l.map Cand.ppl).Nodup) :
    buildDictFrom [] l = l.map fun c => (c.ppl, c) := by
  simpa using buildDictFrom_of_nodup l [] (by simp) h

theorem select_idempotent (cfg : Config) (cands : List Cand) (hw : 0 ≤ cfg.winnerCap) :
    select cfg (select cfg cands) = select cfg cands := by
  set out := select cfg cands with hout
  have hgate : ∀ c ∈ out, gatePass cfg c = true := select_gatePass cfg cands
  have hmapppl : out.map Cand.ppl = keptKeys cfg cands := select_map_ppl cfg cands
  have hnd : (out.map Cand.ppl).Nodup := by
    rw [hmapppl]
    exact keptKeys_nodup cfg cands
  have hd : buildAugs cfg out = out.map fun c => (c.ppl, c) := by
    rw [buildAugs_all_pass cfg out hgate, buildDict_of_nodup out hnd]
  have hkeys : (buildAugs cfg out).map Prod.fst = out.map Cand.ppl := by
    rw [hd, List.map_map]
    rfl
  have hkr : keyRank cfg (buildAugs cfg out) = out.map Cand.ppl := by
    by_cases hcu : cfg.useConf
    · rw [keyRank, if_pos hcu, hkeys]
      exact List.Sorted.insertionSort_eq
        (by rw [hmapppl]; exact keptKeys_sorted cfg cands hcu)
    · rw [keyRank, if_neg hcu]
      exact hkeys
  have hslice : pySlice cfg.winnerCap (out.map Cand.ppl) = out.map Cand.ppl := by
    rw [pySlice, if_pos hw]
    apply List.take_of_length_le
    rw [List.length_map]
    exact select_length_le_cap cfg cands hw
  have hfilter : (out.map Cand.ppl).filter (pplPass cfg) = out.map Cand.ppl :=
    List.filter_eq_self.mpr fun k hk => keptKeys_pplPass cfg cands k (hmapppl ▸ hk)
  calc select cfg out
      = ((pySlice cfg.winnerCap (keyRank cfg (buildAugs cfg out))).filter
          (pplPass cfg)).filterMap (dictGet (buildAugs cfg out)) := rfl
    _ = (out.map Cand.ppl).filterMap (dictGet (out.map fun c => (c.ppl, c))) := by
        rw [hkr, hslice, hfilter, hd]
    _ = out := filterMap_dictGet_pairs out hnd

/-! ## The ranking step on survivors with pairwise-distinct perplexities -/

theorem buildAugs_of_nodup_survivors (cfg : Config) (cands : List Cand)
    (h : ((survivors cfg cands).map Cand.ppl).Nodup) :
    buildAugs cfg cands = (survivors cfg cands).map fun c => (c.ppl, c) := by
  rw [buildAugs_eq_buildDictFrom, buildDict_of_nodup _ h]

theorem rankedSurvivors_perm (cfg : Config) (cands : List Cand)
    (h : ((survivors cfg cands).map Cand.ppl).Nodup) :
    List.Perm (rankedSurvivors cfg cands) (survivors cfg cands) := by
  have hd := buildAugs_of_nodup_survivors cfg cands h
  have hkeys : (buildAugs cfg cands).map Prod.fst = (survivors cfg cands).map Cand.ppl := by
    rw [hd, List.map_map]
    rfl
  have hperm : List.Perm (keyRank cfg (buildAugs cfg cands))
      ((survivors cfg cands).map Cand.ppl) := by
    rw [← hkeys]
    exact keyRank_perm cfg _
  have h₂ := hperm.filterMap (dictGet (buildAugs cfg cands))
  refine h₂.trans ?_
  rw [hd, filterMap_dictGet_pairs _ h]

theorem rankedSurvivors_of_not_useConf (cfg : Config) (cands : List Cand)
    (h : ((survivors cfg cands).map Cand.ppl).Nodup) (hc : cfg.useConf = false) :
    rankedSurvivors cfg cands = survivors cfg cands := by
  have hd := buildAugs_of_nodup_survivors cfg cands h
  calc rankedSurvivors cfg cands
      = (keyRank cfg (buildAugs cfg cands)).filterMap (dictGet (buildAugs cfg cands)) := rfl
    _ = ((buildAugs cfg cands).map Prod.fst).filterMap (dictGet (buildAugs cfg cands)) := by
        rw [keyRank, if_neg (by simp [hc])]
    _ = survivors cfg cands := by
        rw [hd, List.map_map]
        exact filterMap_dictGet_pairs _ h

theorem rankedSurvivors_sorted (cfg : Config) (cands : List Cand) (hc : cfg.useConf = true) :
    (rankedSurvivors cfg cands).Pairwise fun a b => a.ppl ≤ b.ppl := by
  have hmem : ∀ k ∈ keyRank cfg (buildAugs cfg cands),
      k ∈ (buildAugs cfg cands).map Prod.fst :=
    fun k hk => (keyRank_perm cfg _).mem_iff.mp hk
  have hppl : (rankedSurvivors cfg cands).map Cand.ppl = keyRank cfg (buildAugs cfg cands) :=
    filterMap_dictGet_map_ppl _ (buildAugs_key_eq_ppl cfg cands) _ hmem
  have hsorted : (keyRank cfg (buildAugs cfg cands)).Pairwise fun a b => a ≤ b := by
    rw [keyRank, if_pos hc]
    exact List.sorted_insertionSort _ _
  rw [← hppl] at hsorted
  exact List.pairwise_map.mp hsorted

/-! ## The mono-boost selection ignores the filter toggles -/

theorem monoSelect_eq_select (cfg : Config) (cands : List Cand) :
    monoSelect cfg cands =
      select { cfg with useLabel := true, useConf := true, usePerpl := true } cands := by
  simp only [monoSelect, select, buildAugs, gatePass, keyRank, pplPass, Bool.not_true,
    Bool.false_or, if_true]
  rfl

/-! ## Fold-splitter lemmas -/

theorem chunksFuel_flatten (n : ℕ) (hn : 0 < n) :
    ∀ (fuel : ℕ) (l : List α), l.length ≤ fuel → (chunksFuel fuel l n).flatten = l := by
  intro fuel
  induction fuel with
  | zero =>
    intro l hl
    have h0 : l = [] := List.length_eq_zero.mp (Nat.le_zero.mp hl)
    simp [chunksFuel, h0]
  | succ fuel ih =>
    intro l hl
    by_cases he : l.isEmpty
    · simp [chunksFuel, he]
      exact List.isEmpty_iff.mp he
    · rw [chunksFuel]
      simp only [he, Bool.false_eq_true, if_false, List.flatten_cons]
      rw [ih (l.drop n) ?_, List.take_append_drop]
      have hpos : 0 < l.length := by
        cases l with
        | nil => simp at he
        | cons a t => simp
      rw [List.length_drop]
      omega

theorem chunksFuel_mem (n : ℕ) (hn : 0 < n) :
    ∀ (fuel : ℕ) (l : List α), l.length ≤ fuel →
      ∀ c ∈ chunksFuel fuel l n, c.length ≤ n ∧ c ≠ [] := by
  intro fuel
  induction fuel with
  | zero => intro l _ c hc; simp [chunksFuel] at hc
  | succ fuel ih =>
    intro l hl c hc
    by_cases he : l.isEmpty
    · simp [chunksFuel, he] at hc
    · rw [chunksFuel] at hc
      simp only [he, Bool.false_eq_true, if_false, List.mem_cons] at hc
      rcases hc with rfl | hc
      · refine ⟨List.length_take_le n l, ?_⟩
        intro hnil
        rcases List.take_eq_nil_iff.mp hnil with h | h
        · omega
        · rw [h] at he
          simp at he
      · have hpos : 0 < l.length := by
          cases l with
          | nil => simp at he
          | cons a t => simp
        exact ih (l.drop n) (by rw [List.length_drop]; omega) c hc

theorem chunksFuel_dropLast_length (n : ℕ) (hn : 0 < n) :
    ∀ (fuel : ℕ) (l : List α), l.length ≤ fuel →
      ∀ c ∈ (chunksFuel fuel l n).dropLast, c.length = n := by
  intro fuel
  induction fuel with
  | zero => intro l _ c hc; simp [chunksFuel] at hc
  | succ fuel ih =>
    intro l hl c hc
    by_cases he : l.isEmpty
    · simp [chunksFuel, he] at hc
    · rw [chunksFuel] at hc
      simp only [he, Bool.false_eq_true, if_false] at hc
      have hpos : 0 < l.length := by
        cases l with
        | nil => simp at he
        | cons a t => simp
      cases hrec : chunksFuel fuel (l.drop n) n with
      | nil =>
        rw [hrec, List.dropLast_single] at hc
        simp at hc
      | cons c₀ cs =>
        rw [hrec, List.dropLast_cons₂, List.mem_cons] at hc
        rcases hc with rfl | hc
        · -- not the last chunk: the remainder is nonempty, so `l.take n` is full
          have hdrop : l.drop n ≠ [] := by
            intro hnil
            rw [hnil] at hrec
            cases fuel with
            | zero => simp [chunksFuel] at hrec
            | succ f => simp [chunksFuel] at hrec
          have hlen : n < l.length := by
            by_contra hcon
            push_neg at hcon
            exact hdrop (List.drop_eq_nil_of_le hcon)
          rw [List.length_take]
          omega
        · rw [← hrec] at hc
          exact ih (l.drop n) (by rw [List.length_drop]; omega) c hc

theorem foldSplit_flatten (l : List α) (k : ℕ) : (foldSplit l k).flatten = l :=
  chunksFuel_flatten (l.length / k + 1) (Nat.succ_pos _) l.length l le_rfl

theorem foldSplit_sizes (l : List α) (k : ℕ) :
    (∀ c ∈ (foldSplit l k).dropLast, c.length = l.length / k + 1) ∧
      ∀ c ∈ foldSplit l k, c.length ≤ l.length / k + 1 ∧ c ≠ [] :=
  ⟨chunksFuel_dropLast_length _ (Nat.succ_pos _) l.length l le_rfl,
    chunksFuel_mem _ (Nat.succ_pos _) l.length l le_rfl⟩

/-! ## Lexicographic string order lemmas -/

theorem charLt_iff (a b : Char) : charLt a b = true ↔ a.toNat < b.toNat := by
  rw [charLt]
  exact decide_eq_true_iff

theorem strLt_nil_right (s : List Char) : strLt s [] = false := by
  cases s <;> rfl

theorem strLt_irrefl : ∀ s : List Char, strLt s s = false := by
  intro s
  induction s with
  | nil => rfl
  | cons a t ih =>
    rw [strLt]
    have h : charLt a a = false := by
      rw [Bool.eq_false_iff]
      intro hcon
      exact absurd (charLt_iff a a |>.mp hcon) (lt_irrefl _)
    rw [if_neg (by simp [h]), if_neg (by simp [h])]
    exact ih

theorem strLt_asymm : ∀ a b : List Char, strLt a b = true → strLt b a = false := by
  intro a
  induction a with
  | nil =>
    intro b _
    exact strLt_nil_right b
  | cons x as ih =>
    intro b hab
    cases b with
    | nil => rw [strLt_nil_right] at hab; exact absurd hab (by simp)
    | cons y bs =>
      rw [strLt] at hab ⊢
      by_cases hxy : charLt x y = true
      · have h₁ : charLt y x = false := by
          rw [Bool.eq_false_iff]
          intro hcon
          rw [charLt_iff] at hxy hcon
          omega
        rw [if_neg (by simp [h₁]), if_pos hxy]
      · by_cases hyx : charLt y x = true
        · rw [if_neg hxy, if_pos hyx] at hab
          exact absurd hab (by simp)
        · rw [if_neg hxy, if_neg hyx] at hab
          rw [if_neg hyx, if_neg hxy]
          exact ih bs hab

theorem strLt_trans : ∀ a b c : List Char,
    strLt a b = true → strLt b c = true → strLt a c = true := by
  intro a
  induction a with
  | nil =>
    intro b c _ hbc
    cases c with
    | nil => rw [strLt_nil_right] at hbc; exact absurd hbc (by simp)
    | cons z cs => rfl
  | cons x as ih =>
    intro b c hab hbc
    cases b with
    | nil => rw [strLt_nil_right] at hab; exact absurd hab (by simp)
    | cons y bs =>
      cases c with
      | nil => rw [strLt_nil_right] at hbc; exact absurd hbc (by simp)
      | cons z cs =>
        rw [strLt] at hab hbc ⊢
        by_cases hxy : charLt x y = true
        · by_cases hyz : charLt y z = true
          · have hxz : charLt x z = true := by
              rw [charLt_iff] at hxy hyz ⊢
              omega
            rw [if_pos hxz]
          · by_cases hzy : charLt z y = true
            · rw [if_neg hyz, if_pos hzy] at hbc
              exact absurd hbc (by simp)
            · have hxz : charLt x z = true := by
                rw [charLt_iff] at hxy ⊢
                rw [charLt_iff] at hyz hzy
                omega
              rw [if_pos hxz]
        · by_cases hyx : charLt y x = true
          · rw [if_neg hxy, if_pos hyx] at hab
            exact absurd hab (by simp)
          · rw [if_neg hxy, if_neg hyx] at hab
            by_cases hyz : charLt y z = true
            · have hxz : charLt x z = true := by
                rw [charLt_iff] at hyz ⊢
                rw [charLt_iff] at hxy hyx
                omega
              rw [if_pos hxz]
            · by_cases hzy : charLt z y = true
              · rw [if_neg hyz, if_pos hzy] at hbc
                exact absurd hbc (by simp)
              · rw [if_neg hyz, if_neg hzy] at hbc
                have hxz : charLt x z = false := by
                  rw [Bool.eq_false_iff]
                  intro hcon
                  rw [charLt_iff] at hcon
                  rw [charLt_iff] at hxy hyx hyz hzy
                  omega
                have hzx : charLt z x = false := by
                  rw [Bool.eq_false_iff]
                  intro hcon
                  rw [charLt_iff] at hcon
                  rw [charLt_iff] at hxy hyx hyz hzy
                  omega
                rw [if_neg (by simp [hxz]), if_neg (by simp [hzx])]
                exact ih bs cs hab hbc

/-! ## The checkpoint-selection loop -/

theorem f1Suffix_shape : ∀ (p s : List Char), f1Suffix p = some s → ∃ t, s = 'f' :: t := by
  intro p
  induction p with
  | nil => intro s h; simp [f1Suffix] at h
  | cons a rest ih =>
    intro s h
    rw [f1Suffix] at h
    by_cases hcond : a = 'f' ∧ rest.head? = some '1'
    · rw [if_pos hcond] at h
      obtain rfl : a :: rest = s := by injection h
      exact ⟨rest, by rw [hcond.1]⟩
    · rw [if_neg hcond] at h
      exact ih s h

theorem strLt_nil_f1 (s t : List Char) (h : s = 'f' :: t) : strLt [] s = true := by
  rw [h]
  rfl

theorem pyMax_of_lt (a b : List Char) (h : strLt b a = true) : pyMax a b = a := by
  rw [pyMax, if_neg]
  rw [strLt_asymm b a h]
  simp

/-- The invariant of the checkpoint-selection loop: either nothing with an
`"f1"` marker has been seen and the state is still `('', '')`, or the state
holds a seen path, its own `f1`-suffix, and that suffix is maximal among the
seen suffixes. -/
def ckptInv (seen : List (List Char)) (st : List Char × List Char) : Prop :=
  (st = ([], []) ∧ ∀ q ∈ seen, f1Suffix q = none) ∨
  (st.1 ∈ seen ∧ f1Suffix st.1 = some st.2 ∧
    ∀ q ∈ seen, ∀ s, f1Suffix q = some s → strLt st.2 s = false)

theorem ckptStep_inv (paths : List (List Char))
    (H : ∀ p ∈ paths, ∀ q ∈ paths, ∀ s, f1Suffix q = some s → strLt p s = true)
    (seen : List (List Char)) (st : List Char × List Char) (p : List Char)
    (hp : p ∈ paths) (hseen : ∀ x ∈ seen, x ∈ paths) (hinv : ckptInv seen st) :
    ckptInv (seen ++ [p]) (ckptStep st p) := by
  cases hf : f1Suffix p with
  | none =>
    rw [show ckptStep st p = st from by rw [ckptStep, hf]]
    rcases hinv with ⟨h₁, h₂⟩ | ⟨h₁, h₂, h₃⟩
    · left
      refine ⟨h₁, ?_⟩
      intro q hq
      rcases List.mem_append.mp hq with hq | hq
      · exact h₂ q hq
      · rw [List.mem_singleton.mp hq]
        exact hf
    · right
      refine ⟨List.mem_append_left _ h₁, h₂, ?_⟩
      intro q hq s hs
      rcases List.mem_append.mp hq with hq | hq
      · exact h₃ q hq s hs
      · rw [List.mem_singleton.mp hq, hf] at hs
        exact absurd hs (by simp)
  | some suf =>
    rw [show ckptStep st p = if strLt st.2 suf = true then (p, pyMax suf st.1) else st from by
      rw [ckptStep, hf]]
    obtain ⟨t, hshape⟩ := f1Suffix_shape p suf hf
    by_cases hlt : strLt st.2 suf = true
    · rw [if_pos hlt]
      have hmax : pyMax suf st.1 = suf := by
        apply pyMax_of_lt
        rcases hinv with ⟨h₁, _⟩ | ⟨h₁, _, _⟩
        · rw [show st.1 = [] from by rw [h₁]]
          exact strLt_nil_f1 suf t hshape
        · exact H st.1 (hseen st.1 h₁) p hp suf hf
      rw [hmax]
      right
      refine ⟨List.mem_append_right _ (List.mem_singleton_self p), hf, ?_⟩
      intro q hq s hs
      rcases List.mem_append.mp hq with hq | hq
      · rcases hinv with ⟨_, h₂⟩ | ⟨_, _, h₃⟩
        · rw [h₂ q hq] at hs
          exact absurd hs (by simp)
        · rw [Bool.eq_false_iff]
          intro hcon
          have htr := strLt_trans st.2 suf s hlt hcon
          rw [h₃ q hq s hs] at htr
          exact absurd htr (by simp)
      · rw [List.mem_singleton.mp hq, hf] at hs
        obtain rfl : suf = s := by injection hs
        exact strLt_irrefl suf
    · rw [if_neg hlt]
      rcases hinv with ⟨h₁, h₂⟩ | ⟨h₁, h₂, h₃⟩
      · exfalso
        apply hlt
        rw [show st.2 = [] from by rw [h₁]]
        exact strLt_nil_f1 suf t hshape
      · right
        refine ⟨List.mem_append_left _ h₁, h₂, ?_⟩
        intro q hq s hs
        rcases List.mem_append.mp hq with hq | hq
        · exact h₃ q hq s hs
        · rw [List.mem_singleton.mp hq, hf] at hs
          obtain rfl : suf = s := by injection hs
          exact Bool.eq_false_iff.mpr hlt

theorem ckpt_loop_inv (paths : List (List Char))
    (H : ∀ p ∈ paths, ∀ q ∈ paths, ∀ s, f1Suffix q = some s → strLt p s = true) :
    ∀ (l seen : List (List Char)) (st : List Char × List Char),
      (∀ x ∈ l, x ∈ paths) → (∀ x ∈ seen, x ∈ paths) → ckptInv seen st →
      ckptInv (seen ++ l) (l.foldl ckptStep st) := by
  intro l
  induction l with
  | nil =>
    intro seen st _ _ hinv
    simpa using hinv
  | cons p rest ih =>
    intro seen st hl hseen hinv
    have hp : p ∈ paths := hl p (List.mem_cons_self _ _)
    have hstep := ckptStep_inv paths H seen st p hp hseen hinv
    have hrec := ih (seen ++ [p]) (ckptStep st p)
      (fun x hx => hl x (List.mem_cons_of_mem _ hx))
      (fun x hx => by
        rcases List.mem_append.mp hx with h | h
        · exact hseen x h
        · rw [List.mem_singleton.mp h]
          exact hp)
      hstep
    simpa [List.append_assoc] using hrec

theorem selectCheckpoint_maximal (paths : List (List Char))
    (H : ∀ p ∈ paths, ∀ q ∈ paths, ∀ s, f1Suffix q = some s → strLt p s = true)
    (p₀ s₀ : List Char) (hp₀ : p₀ ∈ paths) (hs₀ : f1Suffix p₀ = some s₀) :
    (selectCheckpoint paths).1 ∈ paths ∧
    f1Suffix (selectCheckpoint paths).1 = some (selectCheckpoint paths).2 ∧
    ∀ q ∈ paths, ∀ s, f1Suffix q = some s →
      strLt (selectCheckpoint paths).2 s = false := by
  have h := ckpt_loop_inv paths H paths [] ([], []) (fun x hx => hx) (by simp)
    (Or.inl ⟨rfl, by simp⟩)
  rw [List.nil_append] at h
  rcases h with ⟨_, h₂⟩ | ⟨h₁, h₂, h₃⟩
  · rw [h₂ p₀ hp₀] at hs₀
    exact absurd hs₀ (by simp)
  · exact ⟨h₁, h₂, h₃⟩

/-! # Claims -/

/-- C1 (counterexample): the claim predicts slices of size `⌈N/K⌉` — `[5, 5]`
for `N = 10`, `K = 2` — and exactly `K` slices.  The code chunks by
`N // K + 1`, giving sizes `[6, 4]` at that very instance, and only 3 slices
for `N = 12`, `K = 4`. -/
theorem c1_counterexample :
    ((foldSplit (List.range 10) 2).map List.length = [6, 4] ∧
      (foldSplit (List.range 10) 2).map List.length ≠ [5, 5]) ∧
    (foldSplit (List.range 12) 4).length = 3 := by
  decide

/-- C1 (amended): for every example list and every fold count `K > 0` the
Fold Splitter produces contiguous slices that partition the input in order
(no loss, no duplication, sizes sum to `N`), every slice of size
`⌊N/K⌋ + 1` except possibly a smaller, nonempty last slice; the number of
slices can be smaller than `K`. -/
theorem c1_fold_split_partition {α : Type} (l : List α) (k : ℕ) (hk : 0 < k) :
    (foldSplit l k).flatten = l ∧
    ((foldSplit l k).map List.length).sum = l.length ∧
    (∀ c ∈ (foldSplit l k).dropLast, c.length = l.length / k + 1) ∧
    (∀ c ∈ foldSplit l k, c.length ≤ l.length / k + 1 ∧ c ≠ []) := by
  refine ⟨foldSplit_flatten l k, ?_, (foldSplit_sizes l k).1, (foldSplit_sizes l k).2⟩
  rw [← List.length_flatten, foldSplit_flatten l k]

theorem c1_fold_split_partition_witness :
    0 < 2 ∧
    ((foldSplit (List.range 10) 2).flatten = List.range 10 ∧
      ((foldSplit (List.range 10) 2).map List.length).sum = (List.range 10).length ∧
      (∀ c ∈ (foldSplit (List.range 10) 2).dropLast,
        c.length = (List.range 10).length / 2 + 1) ∧
      (∀ c ∈ foldSplit (List.range 10) 2,
        c.length ≤ (List.range 10).length / 2 + 1 ∧ c ≠ [])) :=
  ⟨by decide, c1_fold_split_partition (List.range 10) 2 (by decide)⟩

/-- The configuration of the order-of-operations scenario of C2:
confidence filter on, `confidence_threshold = 0.99`,
`perplexity_threshold = 5`, `winner_cap = 2`. -/
def c2Cfg : Config := ⟨true, true, true, mkRat 99 100, 5, 2⟩

/-- C2 scenario candidate with perplexity 10. -/
def c2CandA : Cand := ⟨"a", true, mkRat 995 1000, 10⟩

/-- C2 scenario candidate with perplexity 2. -/
def c2CandB : Cand := ⟨"b", true, mkRat 995 1000, 2⟩

/-- C2 scenario candidate with perplexity 3. -/
def c2CandC : Cand := ⟨"c", true, mkRat 995 1000, 3⟩

/-- C2: with the confidence filter enabled, truncation to the winner cap is
applied to the survivors ranked ascending by perplexity before the
perplexity cutoff: on candidates with (conf, ppl) =
(0.995, 10), (0.995, 2), (0.995, 3), winner cap 2, confidence threshold
0.99 and perplexity threshold 5, exactly the candidates with perplexity 2
and 3 are accepted. -/
theorem c2_truncate_before_perplexity :
    select c2Cfg [c2CandA, c2CandB, c2CandC] = [c2CandB, c2CandC] := by
  decide

/-- The configuration of the C3 counterexample: all filters on, generous
thresholds and cap. -/
def c3Cfg : Config := ⟨true, true, true, mkRat 1 2, 100, 10⟩

/-- C3 counterexample candidate; same perplexity as `c3Cand2`. -/
def c3Cand1 : Cand := ⟨"e1", true, 1, 7⟩

/-- C3 counterexample candidate; same perplexity as `c3Cand1`. -/
def c3Cand2 : Cand := ⟨"e2", true, 1, 7⟩

/-- C3 (counterexample): the claim says equal-perplexity survivors are both
retained by the ranking step.  Both candidates survive the gates, yet the
ranking step emits only one of them: the `augs` dict is keyed by perplexity,
so the later candidate overwrites the earlier one. -/
theorem c3_counterexample :
    survivors c3Cfg [c3Cand1, c3Cand2] = [c3Cand1, c3Cand2] ∧
    rankedSurvivors c3Cfg [c3Cand1, c3Cand2] = [c3Cand2] := by
  decide

/-- C3 (amended): the ranking step deduplicates the survivors by perplexity
(among equal-perplexity survivors only the last inserted remains).  On
survivors with pairwise-distinct perplexities it drops nothing: it is a
permutation of the survivors, ascending by perplexity when the confidence
filter is enabled, and exactly the insertion order when it is disabled. -/
theorem c3_ranking_reorders (cfg : Config) (cands : List Cand)
    (h : ((survivors cfg cands).map Cand.ppl).Nodup) :
    List.Perm (rankedSurvivors cfg cands) (survivors cfg cands) ∧
    (cfg.useConf = true →
      (rankedSurvivors cfg cands).Pairwise fun a b => a.ppl ≤ b.ppl) ∧
    (cfg.useConf = false → rankedSurvivors cfg cands = survivors cfg cands) :=
  ⟨rankedSurvivors_perm cfg cands h,
    fun hc => rankedSurvivors_sorted cfg cands hc,
    fun hc => rankedSurvivors_of_not_useConf cfg cands h hc⟩

/-- The configuration of the C3 witness scenario. -/
def c3WCfg : Config := ⟨true, true, true, mkRat 1 2, 100, 10⟩

/-- The candidates of the C3 witness scenario (distinct perplexities). -/
def c3WCands : List Cand := [⟨"x", true, 1, 3⟩, ⟨"y", true, 1, 1⟩]

theorem c3_ranking_reorders_witness :
    ((survivors c3WCfg c3WCands).map Cand.ppl).Nodup ∧
    (List.Perm (rankedSurvivors c3WCfg c3WCands) (survivors c3WCfg c3WCands) ∧
      (c3WCfg.useConf = true →
        (rankedSurvivors c3WCfg c3WCands).Pairwise fun a b => a.ppl ≤ b.ppl) ∧
      (c3WCfg.useConf = false →
        rankedSurvivors c3WCfg c3WCands = survivors c3WCfg c3WCands)) :=
  ⟨by decide, c3_ranking_reorders c3WCfg c3WCands (by decide)⟩

/-- The configuration of the C4 counterexample: `use_label_filter`
disabled. -/
def c4Cfg : Config := ⟨false, true, true, mkRat 1 2, 100, 10⟩

/-- The C4 counterexample candidate: label mismatch, but high confidence and
low perplexity. -/
def c4Cand : Cand := ⟨"m1", false, 1, 3⟩

/-- C4 (counterexample): the claim says that in mono-boost, with
`use_label_filter` disabled, a label-mismatching candidate is not dropped.
The mono-boost selection drops it anyway (it applies the label gate
unconditionally): the identical candidate with a matching label is kept,
the mismatching one is rejected. -/
theorem c4_counterexample :
    c4Cfg.useLabel = false ∧ c4Cand.labelMatch = false ∧
    monoSelect c4Cfg [c4Cand] = [] ∧
    monoSelect c4Cfg [{ c4Cand with labelMatch := true }] =
      [{ c4Cand with labelMatch := true }] := by
  decide

/-- C4 (amended): the mono-boost selection ignores all three filter toggles:
it always behaves as the cross-boost selection with `use_label_filter`,
`use_confidence_filter` and `use_perplexity_filter` all enabled — the label
gate, confidence gate, perplexity ranking and perplexity cutoff are applied
unconditionally. -/
theorem c4_mono_ignores_toggles (cfg : Config) (cands : List Cand) :
    monoSelect cfg cands =
      select { cfg with useLabel := true, useConf := true, usePerpl := true } cands :=
  monoSelect_eq_select cfg cands

/-- C5 counterexample path `"zf1_5"`. -/
def c5Pz : List Char := String.toList "zf1_5"

/-- C5 counterexample path `"af1_7"`. -/
def c5Pa7 : List Char := String.toList "af1_7"

/-- C5 counterexample path `"af1_9"` (the greatest `f1`-suffix). -/
def c5Pa9 : List Char := String.toList "af1_9"

/-- C5 (counterexample): the claim asserts that for every arrangement of
matching checkpoint paths the loaded checkpoint has the lexicographically
greatest substring from its `'f1'` marker.  For the arrangement
`["zf1_5", "af1_7", "af1_9"]` the loop selects `"af1_7"`, although
`"af1_9"`'s suffix `"f1_9"` is strictly greater than `"f1_7"`: the buggy
update `max_f1 = max(suffix, checkpoint_path)` pollutes the running maximum
with the full previous path `"zf1_5"`. -/
theorem c5_counterexample :
    (selectCheckpoint [c5Pz, c5Pa7, c5Pa9]).1 = c5Pa7 ∧
    c5Pa9 ∈ [c5Pz, c5Pa7, c5Pa9] ∧
    f1Suffix c5Pa7 = some (String.toList "f1_7") ∧
    f1Suffix c5Pa9 = some (String.toList "f1_9") ∧
    strLt (String.toList "f1_7") (String.toList "f1_9") = true := by
  decide

/-- C5 (amended): with at least `CLASSIFIER_TRAINING_NUM + 1` matching
checkpoint directories on disk the training step is skipped; and provided
every full checkpoint path compares lexicographically below every
`'f1'`-suffix occurring among the paths (true for the realistic directory
paths, which begin with a character below `'f'`), the selected checkpoint is
one of the paths and carries a maximal `'f1'`-suffix.  For adversarial
arrangements the selection can miss the maximum (see the counterexample). -/
theorem c5_checkpoint_reuse (numCkpt trainNum : ℕ) (paths : List (List Char))
    (p₀ s₀ : List Char)
    (hskip : trainNum + 1 ≤ numCkpt)
    (H : ∀ p ∈ paths, ∀ q ∈ paths, ∀ s, f1Suffix q = some s → strLt p s = true)
    (hp₀ : p₀ ∈ paths) (hs₀ : f1Suffix p₀ = some s₀) :
    needTraining numCkpt trainNum = false ∧
    (selectCheckpoint paths).1 ∈ paths ∧
    f1Suffix (selectCheckpoint paths).1 = some (selectCheckpoint paths).2 ∧
    ∀ q ∈ paths, ∀ s, f1Suffix q = some s →
      strLt (selectCheckpoint paths).2 s = false := by
  refine ⟨?_, selectCheckpoint_maximal paths H p₀ s₀ hp₀ hs₀⟩
  rw [needTraining]
  simp only [decide_eq_false_iff_not, not_lt]
  omega

/-- The single checkpoint path of the C5 witness scenario. -/
def c5WP : List Char := String.toList "/ckpt/f1_85"

/-- Its `f1`-suffix. -/
def c5WS : List Char := String.toList "f1_85"

theorem c5_checkpoint_reuse_witness :
    (2 + 1 ≤ 3 ∧ c5WP ∈ [c5WP] ∧ f1Suffix c5WP = some c5WS) ∧
    (needTraining 3 2 = false ∧
      (selectCheckpoint [c5WP]).1 ∈ [c5WP] ∧
      f1Suffix (selectCheckpoint [c5WP]).1 = some (selectCheckpoint [c5WP]).2 ∧
      ∀ q ∈ [c5WP], ∀ s, f1Suffix q = some s →
        strLt (selectCheckpoint [c5WP]).2 s = false) :=
  ⟨⟨by decide, by decide, by decide⟩,
    c5_checkpoint_reuse 3 2 [c5WP] c5WP c5WS (by decide)
      (by
        intro p hp q hq s hs
        rw [List.mem_singleton.mp hp]
        rw [List.mem_singleton.mp hq] at hs
        rw [show f1Suffix c5WP = some c5WS from by decide] at hs
        injection hs with h
        rw [← h]
        decide)
      (by decide) (by decide)⟩

/-- C6: for fixed candidates, winner cap and perplexity threshold, raising
the confidence threshold never increases the number of accepted
candidates. -/
theorem c6_confidence_monotone (cfg : Config) (t₁ t₂ : ℚ) (cands : List Cand)
    (h : t₁ ≤ t₂) :
    (select { cfg with confThreshold := t₂ } cands).length ≤
      (select { cfg with confThreshold := t₁ } cands).length := by
  by_cases hc : cfg.useConf = true
  · exact select_length_antitone_of_useConf cfg t₁ t₂ h cands hc
  · have hc' : cfg.useConf = false := by simpa using hc
    rw [select_of_not_useConf cfg t₁ t₂ hc']

/-- The base configuration of the C6 witness scenario. -/
def c6WCfg : Config := ⟨true, true, true, 0, 5, 10⟩

/-- The candidate of the C6 witness scenario. -/
def c6WCands : List Cand := [⟨"u", true, mkRat 7 10, 2⟩]

theorem c6_confidence_monotone_witness :
    (mkRat 1 2 : ℚ) ≤ mkRat 3 4 ∧
    (select { c6WCfg with confThreshold := mkRat 3 4 } c6WCands).length ≤
      (select { c6WCfg with confThreshold := mkRat 1 2 } c6WCands).length :=
  ⟨by decide, c6_confidence_monotone c6WCfg (mkRat 1 2) (mkRat 3 4) c6WCands (by decide)⟩

/-- The configuration of the C7 counterexample: winner cap `-1`. -/
def c7Cfg : Config := ⟨false, true, true, mkRat 1 2, 5, -1⟩

/-- C7 counterexample candidate with perplexity 1. -/
def c7Cand1 : Cand := ⟨"d1", true, 1, 1⟩

/-- C7 counterexample candidate with perplexity 2. -/
def c7Cand2 : Cand := ⟨"d2", true, 1, 2⟩

/-- C7 (counterexample): the claim asserts idempotence for every
configuration.  With the (unvalidated) winner cap `-1` the Python slice
`key_rank[:-1]` drops the last ranked key each time, so re-running the
selection on its own output shrinks it further. -/
theorem c7_counterexample :
    select c7Cfg [c7Cand1, c7Cand2] = [c7Cand1] ∧
    select c7Cfg (select c7Cfg [c7Cand1, c7Cand2]) = [] ∧
    select c7Cfg (select c7Cfg [c7Cand1, c7Cand2]) ≠ select c7Cfg [c7Cand1, c7Cand2] := by
  decide

/-- C7 (amended): for every configuration with a nonnegative winner cap,
applying the selection to its own output returns it unchanged. -/
theorem c7_select_idempotent (cfg : Config) (cands : List Cand)
    (hw : 0 ≤ cfg.winnerCap) :
    select cfg (select cfg cands) = select cfg cands :=
  select_idempotent cfg cands hw

/-- The configuration of the C7 witness scenario. -/
def c7WCfg : Config := ⟨true, true, true, mkRat 1 2, 100, 2⟩

/-- The candidates of the C7 witness scenario. -/
def c7WCands : List Cand := [⟨"x", true, 1, 3⟩, ⟨"y", true, 1, 1⟩, ⟨"z", true, 1, 2⟩]

theorem c7_select_idempotent_witness :
    (0 : Int) ≤ c7WCfg.winnerCap ∧
    select c7WCfg (select c7WCfg c7WCands) = select c7WCfg c7WCands :=
  ⟨by decide, c7_select_idempotent c7WCfg c7WCands (by decide)⟩

/-- The label of the C8 counterexample. -/
def c8Label : List Char := String.toList "1"

/-- A C8 counterexample augmentation preserving the placeholder. -/
def c8Aug1 : List Char := String.toList "xx PLACEHOLDER 1"

/-- Another C8 counterexample augmentation preserving the placeholder. -/
def c8Aug2 : List Char := String.toList "yy PLACEHOLDER 1"

/-- C8 (counterexample): the claim bounds emission by the winner cap for
every strategy.  The classic strategy applies no cap at all: with
`WINNER_NUM_PER_CASE = 1` it still emits both placeholder-preserving
augmentations of one source example. -/
theorem c8_counterexample :
    (classicEmit 1 c8Label [c8Aug1, c8Aug2]).length = 2 ∧
    ¬ ((classicEmit 1 c8Label [c8Aug1, c8Aug2]).length ≤ 1) := by
  decide

/-- C8 (amended): in the cross-boost and mono-boost strategies, for every
configuration with a nonnegative winner cap, the number of accepted
candidates per source example never exceeds `WINNER_NUM_PER_CASE`.  The
classic strategy applies only the placeholder check, with no cap; a
negative cap can likewise be exceeded (Python slicing keeps all but the
last `-cap` candidates). -/
theorem c8_winner_cap (cfg : Config) (cands : List Cand) (hw : 0 ≤ cfg.winnerCap) :
    ((select cfg cands).length : Int) ≤ cfg.winnerCap ∧
    ((monoSelect cfg cands).length : Int) ≤ cfg.winnerCap := by
  have h₁ := select_length_le_cap cfg cands hw
  have h₂ : (monoSelect cfg cands).length ≤ cfg.winnerCap.toNat := by
    rw [monoSelect_eq_select]
    exact select_length_le_cap _ cands hw
  constructor <;> omega

theorem c8_winner_cap_witness :
    (0 : Int) ≤ c7WCfg.winnerCap ∧
    (((select c7WCfg c7WCands).length : Int) ≤ c7WCfg.winnerCap ∧
      ((monoSelect c7WCfg c7WCands).length : Int) ≤ c7WCfg.winnerCap) :=
  ⟨by decide, c8_winner_cap c7WCfg c7WCands (by decide)⟩

/-- C9: `detect_dataset` raises exactly when no training files were located,
with a message ending in the naming-convention documentation URL; when
training files exist but test files do not, it returns the file mapping
normally and only flags the printed warning. -/
theorem c9_detect_dataset (dsName : String) (train test valid : List String) :
    (train = [] →
      detect_dataset dsName train test valid = Except.error (datasetErrorMsg dsName)) ∧
    (train ≠ [] →
      detect_dataset dsName train test valid =
        Except.ok ((train, test, valid), decide (test = []))) ∧
    (∀ msg, detect_dataset dsName train test valid = Except.error msg →
      msg = datasetErrorMsg dsName ∧ train = []) ∧
    datasetErrorMsg dsName =
      ("Fail to locate dataset: " ++ dsName ++
        ". If you are using your own dataset, you may need rename your dataset according to ")
        ++ namingConventionURL := by
  refine ⟨?_, ?_, ?_, ?_⟩
  · intro h
    rw [detect_dataset, if_pos h]
  · intro h
    rw [detect_dataset, if_neg h]
  · intro msg hmsg
    rw [detect_dataset] at hmsg
    by_cases h : train = []
    · rw [if_pos h] at hmsg
      injection hmsg with h₂
      exact ⟨h₂.symm, h⟩
    · rw [if_neg h] at hmsg
      exact absurd hmsg (by simp)
  · rw [datasetErrorMsg]

theorem c9_detect_dataset_witness :
    (([] : List String) = [] ∧ (["a.train.dat"] : List String) ≠ []) ∧
    detect_dataset "laptop" [] ["t.test.dat"] [] =
      Except.error (datasetErrorMsg "laptop") ∧
    detect_dataset "laptop" ["a.train.dat"] [] [] =
      Except.ok ((["a.train.dat"], [], []), decide (([] : List String) = [])) :=
  ⟨⟨rfl, by decide⟩,
    (c9_detect_dataset "laptop" [] ["t.test.dat"] []).1 rfl,
    (c9_detect_dataset "laptop" ["a.train.dat"] [] []).2.1 (by decide)⟩

/-- C10: the constructor stores `AUGMENT_NUM_PER_CASE` as 1 whenever the
argument is nonpositive and unchanged otherwise, so the stored count is
always at least 1. -/
theorem c10_augment_num_normalisation (n : Int) :
    (n ≤ 0 → storeAugmentNumPerCase n = 1) ∧
    (0 < n → storeAugmentNumPerCase n = n) ∧
    1 ≤ storeAugmentNumPerCase n := by
  rw [storeAugmentNumPerCase]
  by_cases h : 0 < n
  · rw [if_pos h]
    exact ⟨fun hle => absurd h (by omega), fun _ => rfl, by omega⟩
  · rw [if_neg h]
    exact ⟨fun _ => rfl, fun hpos => absurd hpos h, le_refl 1⟩

theorem c10_augment_num_normalisation_witness :
    ((-5 : Int) ≤ 0 ∧ (0 : Int) < 7) ∧
    storeAugmentNumPerCase (-5) = 1 ∧ storeAugmentNumPerCase 7 = 7 :=
  ⟨⟨by decide, by decide⟩,
    (c10_augment_num_normalisation (-5)).1 (by decide),
    (c10_augment_num_normalisation 7).2.1 (by decide)⟩

end BoostAug
